import Mathlib

/-!
Shallow embedding of sharkit (`src/main.rs`): the `Entry`/`App` data model, the
selection-session operations, the preview derivation, and the key-event loop of
`main`, together with proofs about them.

Conventions of the embedding:
* Rust `String` values are modelled as Lean `String` (for names, paths and the
  stored preview) or as `List Char` (for file contents, where UTF-8 byte
  arithmetic matters); `PathBuf` is modelled as `String`.
* Fallible or panicking steps return `Option`: `none` models a panic
  (an out-of-range index, or the truncation slice `&content[..10000]` landing
  inside a multi-byte character).
* The file system is a parameter: what `fs::read_to_string` yields per path.
-/

namespace Sharkit

/-- One directory item (struct `Entry` in main.rs). -/
structure Entry where
  name : String
  path : String
  hidden : Bool
  ignored : Bool
  selected : Bool
deriving DecidableEq

/-- The session state (struct `App` in main.rs). -/
structure App where
  items : List Entry
  cursor : Nat
  preview_content : String
  show_preview : Bool
deriving DecidableEq

/-- Codepoint-wise lexicographic comparison of character lists.  This models
Rust `String::cmp`, which compares UTF-8 bytes; byte-wise UTF-8 order coincides
with codepoint order. -/
def cmpChars : List Char → List Char → Ordering
  | [], [] => Ordering.eq
  | [], _ :: _ => Ordering.lt
  | _ :: _, [] => Ordering.gt
  | a :: as, b :: bs =>
    match compare a.toNat b.toNat with
    | Ordering.eq => cmpChars as bs
    | o => o

/-- The entry name lowered character by character (Rust `name.to_lowercase()`;
Unicode case mapping outside basic latin is outside the scope of the model). -/
def lowerName (e : Entry) : List Char := e.name.data.map Char.toLower

/-- The comparator closure passed to `sort_by` in `App::new`: hidden entries
compare greater than non-hidden ones, otherwise lowercased names decide. -/
def entryCmp (a b : Entry) : Ordering :=
  match a.hidden, b.hidden with
  | true, false => Ordering.gt
  | false, true => Ordering.lt
  | _, _ => cmpChars (lowerName a) (lowerName b)

/-- The non-strict order induced by `entryCmp`, as used by a stable sort. -/
def entryLe (a b : Entry) : Bool := !(entryCmp a b == Ordering.gt)

/-- The `items.sort_by(..)` call in `App::new`: Rust's stable sort, modelled by
`List.mergeSort` (also a stable sort) under `entryLe`. -/
def sortEntries (items : List Entry) : List Entry := items.mergeSort entryLe

/-- UTF-8 byte length of a character list (Rust `String::len`). -/
def utf8Len : List Char → Nat
  | [] => 0
  | c :: cs => c.utf8Size + utf8Len cs

/-- The byte slice `&content[..n]` of Rust, read back as characters: `some` of
the first characters spanning exactly `n` bytes, `none` when byte offset `n` is
past the end or not a character boundary (both cases panic in Rust). -/
def takeBytes : List Char → Nat → Option (List Char)
  | _, 0 => some []
  | [], _ + 1 => none
  | c :: cs, n + 1 =>
    if c.utf8Size ≤ n + 1 then (takeBytes cs (n + 1 - c.utf8Size)).map (c :: ·) else none

/-- The `Ok(content)` branch of `App::update_preview`: empty placeholder, byte
truncation at 10000 with a notice, or the content verbatim. -/
def previewOfContent (content : List Char) : Option String :=
  if content.isEmpty then some "<empty file>"
  else if utf8Len content > 10000 then
    (takeBytes content 10000).map fun pre =>
      pre.asString ++ "\n\n... (truncated, file is " ++ toString (utf8Len content) ++ " bytes)"
  else some content.asString

/-- Result of `fs::read_to_string` on one path: the text, or the error's
display string. -/
abbrev ReadResult := Except String (List Char)

/-- The file system seen by the session. -/
abbrev FileSys := String → ReadResult

/-- `App::update_preview`. -/
def update_preview (fs : FileSys) (app : App) : Option App :=
  if app.items.isEmpty then
    some { app with preview_content := "No files available" }
  else
    match app.items[app.cursor]? with
    | none => none
    | some e =>
      match fs e.path with
      | Except.ok content =>
        (previewOfContent content).map fun p => { app with preview_content := p }
      | Except.error err =>
        some { app with preview_content := "Error reading file: " ++ err }

/-- `App::new`: sort the items, start at cursor 0 with the preview pane shown,
then compute the initial preview. -/
def App.new (fs : FileSys) (items : List Entry) : Option App :=
  update_preview fs
    { items := sortEntries items, cursor := 0, preview_content := "", show_preview := true }

/-- `App::select_all`. -/
def select_all (app : App) : App :=
  { app with items := app.items.map fun it => { it with selected := true } }

/-- `App::select_none`. -/
def select_none (app : App) : App :=
  { app with items := app.items.map fun it => { it with selected := false } }

/-- `App::select_only_n`: clear all selections; when the catalog is non-empty,
select index `min n (len - 1)` and move the cursor there. -/
def select_only_n (app : App) (n : Nat) : Option App :=
  let cleared := select_none app
  if cleared.items.isEmpty then some cleared
  else
    let idx := n.min (cleared.items.length - 1)
    match cleared.items[idx]? with
    | some it =>
      some { cleared with
              items := cleared.items.set idx { it with selected := true }, cursor := idx }
    | none => none

/-- `App::toggle_current`. -/
def toggle_current (app : App) : Option App :=
  if app.items.isEmpty then some app
  else
    match app.items[app.cursor]? with
    | some it =>
      some { app with items := app.items.set app.cursor { it with selected := !it.selected } }
    | none => none

/-- The cursor arithmetic of `App::move_up`: decrement with wraparound to the
last index. -/
def cursorUp (len c : Nat) : Nat := if c = 0 then len - 1 else c - 1

/-- The cursor arithmetic of `App::move_down`: increment modulo the length. -/
def cursorDown (len c : Nat) : Nat := (c + 1) % len

/-- `App::move_up`: decrement the cursor with wraparound, then refresh the
preview. -/
def move_up (fs : FileSys) (app : App) : Option App :=
  if app.items.isEmpty then some app
  else update_preview fs { app with cursor := cursorUp app.items.length app.cursor }

/-- `App::move_down`: increment the cursor modulo the length, then refresh the
preview. -/
def move_down (fs : FileSys) (app : App) : Option App :=
  if app.items.isEmpty then some app
  else update_preview fs { app with cursor := cursorDown app.items.length app.cursor }

/-- `App::selected_paths`. -/
def selected_paths (app : App) : List String :=
  (app.items.filter fun e => e.selected).map fun e => e.path

/-- `App::selected_count`. -/
def selected_count (app : App) : Nat :=
  (app.items.filter fun e => e.selected).length

/-- `App::toggle_preview`. -/
def toggle_preview (app : App) : App := { app with show_preview := !app.show_preview }

/-- Key codes distinguished by the event match in `main` (every other key
event takes the catch-all arm). -/
inductive KeyCode where
  | up
  | down
  | enter
  | esc
  | char (c : Char)
deriving DecidableEq

/-- Modifier state of a key event.  The match in `main` only ever tests for the
exact value SHIFT, so three booleans suffice. -/
structure Modifiers where
  shift : Bool
  ctrl : Bool
  alt : Bool
deriving DecidableEq

/-- Outcome of handling one key event: keep looping with a new state, or leave
the loop with the confirmation flag. -/
inductive StepResult where
  | running (app : App)
  | exit (confirmed : Bool) (app : App)

/-- The key match of `main`'s event loop, one event. -/
def handleKey (fs : FileSys) (app : App) (code : KeyCode) (m : Modifiers) :
    Option StepResult :=
  match code, m with
  | KeyCode.up, _ => (move_up fs app).map StepResult.running
  | KeyCode.char 'k', _ => (move_up fs app).map StepResult.running
  | KeyCode.down, _ => (move_down fs app).map StepResult.running
  | KeyCode.char 'j', _ => (move_down fs app).map StepResult.running
  | KeyCode.char ' ', _ => (toggle_current app).map StepResult.running
  | KeyCode.char 'a', _ => some (StepResult.running (select_all app))
  | KeyCode.char 'A', _ => some (StepResult.running (select_all app))
  | KeyCode.char 'n', _ => some (StepResult.running (select_none app))
  | KeyCode.enter, _ => some (StepResult.exit true app)
  | KeyCode.esc, _ => some (StepResult.exit false app)
  | KeyCode.char 'q', _ => some (StepResult.exit false app)
  | KeyCode.char '1', ⟨true, false, false⟩ => (select_only_n app 0).map StepResult.running
  | KeyCode.char '2', ⟨true, false, false⟩ => (select_only_n app 1).map StepResult.running
  | KeyCode.char '3', ⟨true, false, false⟩ => (select_only_n app 2).map StepResult.running
  | KeyCode.char '4', ⟨true, false, false⟩ => (select_only_n app 3).map StepResult.running
  | KeyCode.char '5', ⟨true, false, false⟩ => (select_only_n app 4).map StepResult.running
  | KeyCode.char '6', ⟨true, false, false⟩ => (select_only_n app 5).map StepResult.running
  | KeyCode.char '7', ⟨true, false, false⟩ => (select_only_n app 6).map StepResult.running
  | KeyCode.char '8', ⟨true, false, false⟩ => (select_only_n app 7).map StepResult.running
  | KeyCode.char '9', ⟨true, false, false⟩ => (select_only_n app 8).map StepResult.running
  | KeyCode.char '0', ⟨true, false, false⟩ =>
    if app.items.isEmpty then some (StepResult.running app)
    else (select_only_n app (app.items.length - 1)).map StepResult.running
  | KeyCode.char 'p', _ => some (StepResult.running (toggle_preview app))
  | _, _ => some (StepResult.running app)

/-- The event loop of `main`, driven by a list of key events.  `none` when the
input runs out while still looping (the real loop would block) or a step
panics; otherwise the confirmation flag and the final state. -/
def runLoop (fs : FileSys) : App → List (KeyCode × Modifiers) → Option (Bool × App)
  | _, [] => none
  | app, (c, m) :: rest =>
    match handleKey fs app c m with
    | none => none
    | some (StepResult.exit confirmed app') => some (confirmed, app')
    | some (StepResult.running app') => runLoop fs app' rest

/-- The tail of `main` after the loop: on confirm, one output line per selected
path — relative via `pathdiff::diff_paths` when possible, else the path as-is —
and exit code 0; on cancel, no output and exit code 130.  `diff` models the
relative-path formatter. -/
def mainExit (diff : String → Option String) (confirmed : Bool) (app : App) :
    List String × Nat :=
  if confirmed then
    ((selected_paths app).map fun p => (diff p).getD p, 0)
  else
    ([], 130)

/-- `main` end to end: build the app from the listed entries, run the loop on
the given key events, then print and exit. -/
def mainRun (fs : FileSys) (diff : String → Option String) (items : List Entry)
    (keys : List (KeyCode × Modifiers)) : Option (List String × Nat) :=
  (App.new fs items).bind fun app =>
    (runLoop fs app keys).map fun r => mainExit diff r.1 r.2

/-! ### Helper lemmas about selection -/

theorem filter_selected_map_false (l : List Entry) :
    (l.map fun e => { e with selected := false }).filter (fun e => e.selected) = [] := by
  rw [List.filter_eq_nil_iff]
  intro a ha
  simp only [List.mem_map] at ha
  obtain ⟨e, -, rfl⟩ := ha
  simp

theorem filter_selected_map_true (l : List Entry) :
    (l.map fun e => { e with selected := true }).filter (fun e => e.selected) =
      l.map fun e => { e with selected := true } := by
  rw [List.filter_eq_self]
  intro a ha
  simp only [List.mem_map] at ha
  obtain ⟨e, -, rfl⟩ := ha
  rfl

theorem select_none_items (app : App) :
    (select_none app).items = app.items.map fun e => { e with selected := false } := rfl

theorem set_of_getElem? {α : Type} (l : List α) (i : Nat) (a : α) (h : l[i]? = some a) :
    l.set i a = l := by
  have hi : i < l.length := by
    rcases List.getElem?_eq_some.mp h with ⟨hlt, -⟩
    exact hlt
  apply List.ext_getElem?
  intro j
  by_cases hj : i = j
  · subst hj
    rw [List.getElem?_set_self hi, h]
  · rw [List.getElem?_set_ne hj]

theorem count_one_of_set_true (l : List Entry) :
    ∀ (idx : Nat) (x : Entry), idx < l.length → x.selected = true →
      (l.filter fun e => e.selected) = [] →
      ((l.set idx x).filter fun e => e.selected).length = 1 := by
  induction l with
  | nil => intro idx x h _ _; simp at h
  | cons e l ih =>
    intro idx x hlt hx hall
    rw [List.filter_eq_nil_iff] at hall
    have he : ¬e.selected = true := hall e (List.mem_cons_self e l)
    have htail : (l.filter fun e => e.selected) = [] := by
      rw [List.filter_eq_nil_iff]
      intro a ha
      exact hall a (List.mem_cons_of_mem _ ha)
    cases idx with
    | zero =>
      simp [List.filter_cons, hx, htail]
    | succ j =>
      have hj : j < l.length := by simpa using hlt
      simp [List.filter_cons, he, ih j x hj hx htail]

theorem toggle_count_step (l : List Entry) :
    ∀ (i : Nat) (it : Entry), l[i]? = some it →
      ((l.set i { it with selected := !it.selected }).filter fun e => e.selected).length
          + (if it.selected then 1 else 0) =
        (l.filter fun e => e.selected).length + (if it.selected then 0 else 1) := by
  induction l with
  | nil => intro i it h; simp at h
  | cons e l ih =>
    intro i it h
    cases i with
    | zero =>
      simp only [List.getElem?_cons_zero, Option.some.injEq] at h
      by_cases hs : it.selected = true <;> simp [List.filter_cons, h, hs]
    | succ j =>
      simp only [List.getElem?_cons_succ] at h
      have hrec := ih j it h
      by_cases he : e.selected = true <;>
        simp [List.filter_cons, he] at hrec ⊢ <;> omega

/-- C7: after `selectAll` every entry is selected and `selectedCount` equals the
catalog length; after `selectNone` no entry is selected and `selectedCount` is 0;
`selectedPaths` returns the paths of exactly the selected entries in catalog
order, and `selectedCount` agrees with its length. -/
theorem c7_select_all_none_queries (app : App) :
    selected_count (select_all app) = app.items.length ∧
    (∀ e, e ∈ (select_all app).items → e.selected = true) ∧
    selected_count (select_none app) = 0 ∧
    (∀ e, e ∈ (select_none app).items → e.selected = false) ∧
    selected_paths (select_all app) = app.items.map (fun e => e.path) ∧
    selected_paths (select_none app) = [] ∧
    selected_count app = (selected_paths app).length ∧
    (∀ p, p ∈ selected_paths app ↔ ∃ e, e ∈ app.items ∧ e.selected = true ∧ e.path = p) := by
  refine ⟨?_, ?_, ?_, ?_, ?_, ?_, ?_, ?_⟩
  · simp [selected_count, select_all, filter_selected_map_true]
  · intro e he
    simp only [select_all, List.mem_map] at he
    obtain ⟨x, -, rfl⟩ := he
    rfl
  · simp [selected_count, select_none, filter_selected_map_false]
  · intro e he
    simp only [select_none, List.mem_map] at he
    obtain ⟨x, -, rfl⟩ := he
    rfl
  · rw [selected_paths, select_all]
    simp only [filter_selected_map_true, List.map_map]
    rfl
  · simp [selected_paths, select_none, filter_selected_map_false]
  · simp [selected_count, selected_paths]
  · intro p
    simp only [selected_paths, List.mem_map, List.mem_filter]
    constructor
    · rintro ⟨e, ⟨h1, h2⟩, h3⟩
      exact ⟨e, h1, h2, h3⟩
    · rintro ⟨e, h1, h2, h3⟩
      exact ⟨e, ⟨h1, h2⟩, h3⟩

/-- Concrete entries and session used by witnesses below. -/
def entryA : Entry :=
  { name := "a.txt", path := "a.txt", hidden := false, ignored := false, selected := false }

def entryB : Entry :=
  { name := "b.txt", path := "b.txt", hidden := false, ignored := false, selected := true }

def sampleApp : App :=
  { items := [entryA, entryB], cursor := 0, preview_content := "", show_preview := true }

/-- C7 witness: the queries evaluated on a concrete two-entry session. -/
theorem c7_select_all_none_queries_witness :
    selected_count (select_all sampleApp) = 2 := by
  exact (c7_select_all_none_queries sampleApp).1

theorem select_only_n_nil (app : App) (n : Nat) (h : app.items = []) :
    select_only_n app n = some app := by
  cases app with
  | mk items cursor pc sp =>
    cases h
    rfl

theorem select_only_n_spec (app : App) (n : Nat) (h : app.items ≠ []) :
    ∃ it, (select_none app).items[n.min (app.items.length - 1)]? = some it ∧
      select_only_n app n =
        some { select_none app with
                items := (select_none app).items.set (n.min (app.items.length - 1))
                    { it with selected := true },
                cursor := n.min (app.items.length - 1) } := by
  have hpos : 0 < app.items.length := List.length_pos.mpr h
  have hidxlt : n.min (app.items.length - 1) < app.items.length :=
    lt_of_le_of_lt (Nat.min_le_right _ _) (Nat.sub_lt hpos Nat.one_pos)
  have hclen : (select_none app).items.length = app.items.length := by
    simp [select_none]
  have hclt : n.min (app.items.length - 1) < (select_none app).items.length := by
    rw [hclen]; exact hidxlt
  obtain ⟨it, hit⟩ : ∃ it, (select_none app).items[n.min (app.items.length - 1)]? = some it :=
    ⟨_, List.getElem?_eq_getElem hclt⟩
  have hne : (select_none app).items.isEmpty = false := by
    rw [List.isEmpty_eq_false_iff_exists_mem]
    exact ⟨_, List.getElem_mem hclt⟩
  exact ⟨it, hit, by simp only [select_only_n, hne, Bool.false_eq_true, if_false, hclen, hit]⟩

/-- C2: `selectOnlyIndex(n)` on a non-empty catalog clears all selections, then
selects exactly the entry at index `min n (len - 1)` and moves the cursor there,
so afterwards the selected count is 1 and the unique selected entry sits at
`min n (len - 1)`; on an empty catalog it is a no-op. -/
theorem c2_select_only_index (app : App) (n : Nat) :
    (app.items = [] → select_only_n app n = some app) ∧
    (app.items ≠ [] →
      ∃ app', select_only_n app n = some app' ∧
        app'.cursor = n.min (app.items.length - 1) ∧
        app'.items.length = app.items.length ∧
        selected_count app' = 1 ∧
        ∀ i e, app'.items[i]? = some e →
          (e.selected = true ↔ i = n.min (app.items.length - 1))) := by
  constructor
  · exact fun h => select_only_n_nil app n h
  · intro h
    have hpos : 0 < app.items.length := List.length_pos.mpr h
    have hidxlt : n.min (app.items.length - 1) < app.items.length :=
      lt_of_le_of_lt (Nat.min_le_right _ _) (Nat.sub_lt hpos Nat.one_pos)
    have hclen : (select_none app).items.length = app.items.length := by
      simp [select_none]
    have hclt : n.min (app.items.length - 1) < (select_none app).items.length := by
      rw [hclen]; exact hidxlt
    obtain ⟨it, hit, hstep⟩ := select_only_n_spec app n h
    refine ⟨_, hstep, rfl, ?_, ?_, ?_⟩
    · simp [hclen]
    · exact count_one_of_set_true _ _ _ hclt rfl (filter_selected_map_false _)
    · intro i e hie
      by_cases hi : i = n.min (app.items.length - 1)
      · subst hi
        rw [List.getElem?_set_self hclt] at hie
        cases hie
        simp
      · rw [List.getElem?_set_ne (fun hq => hi hq.symm)] at hie
        simp only [select_none_items, List.getElem?_map] at hie
        cases hx : app.items[i]? with
        | none => rw [hx] at hie; cases hie
        | some a =>
          rw [hx] at hie
          cases hie
          simp [hi]

/-- C2 witness: on the concrete two-entry session, `selectOnlyIndex 5` selects
exactly one entry, at the clamped index 1. -/
theorem c2_select_only_index_witness :
    ∃ app', select_only_n sampleApp 5 = some app' ∧
      app'.cursor = 1 ∧ app'.items.length = 2 ∧ selected_count app' = 1 := by
  obtain ⟨app', h1, h2, h3, h4, -⟩ :=
    (c2_select_only_index sampleApp 5).2 (by decide)
  exact ⟨app', h1, h2, h3, h4⟩

/-- C6: on an in-bounds cursor, `toggleCurrent` flips only the selected flag of
the entry under the cursor (the count moves by exactly one in the matching
direction), leaves cursor, preview and every other entry unchanged, and applied
twice restores the original state. -/
theorem c6_toggle_current (app : App) (h : app.cursor < app.items.length) :
    ∃ it app', app.items[app.cursor]? = some it ∧ toggle_current app = some app' ∧
      app'.items = app.items.set app.cursor { it with selected := !it.selected } ∧
      app'.cursor = app.cursor ∧
      app'.preview_content = app.preview_content ∧
      app'.show_preview = app.show_preview ∧
      app'.items.length = app.items.length ∧
      (∀ i, i ≠ app.cursor → app'.items[i]? = app.items[i]?) ∧
      (it.selected = true → selected_count app' + 1 = selected_count app) ∧
      (it.selected = false → selected_count app' = selected_count app + 1) ∧
      toggle_current app' = some app := by
  have hne : app.items.isEmpty = false := by
    rw [List.isEmpty_eq_false_iff_exists_mem]
    exact ⟨_, List.getElem_mem h⟩
  obtain ⟨it, hit⟩ : ∃ it, app.items[app.cursor]? = some it :=
    ⟨_, List.getElem?_eq_getElem h⟩
  refine ⟨it,
    { app with items := app.items.set app.cursor { it with selected := !it.selected } },
    hit, ?_, rfl, rfl, rfl, rfl, ?_, ?_, ?_, ?_, ?_⟩
  · simp only [toggle_current, hne, Bool.false_eq_true, if_false, hit]
  · simp
  · intro i hi
    exact List.getElem?_set_ne (fun hq => hi hq.symm)
  · intro hsel
    have := toggle_count_step app.items app.cursor it hit
    simp only [hsel, if_true] at this
    simpa [selected_count, hsel] using this
  · intro hsel
    have := toggle_count_step app.items app.cursor it hit
    simp only [hsel, Bool.false_eq_true, if_false] at this
    simpa [selected_count, hsel] using this
  · have hlen : (app.items.set app.cursor { it with selected := !it.selected }).length
        = app.items.length := by simp
    have hne2 : (app.items.set app.cursor
        { it with selected := !it.selected }).isEmpty = false := by
      rw [List.isEmpty_eq_false_iff_exists_mem]
      exact ⟨_, List.getElem_mem (hlen ▸ h)⟩
    have hget2 : (app.items.set app.cursor { it with selected := !it.selected })[app.cursor]?
        = some { it with selected := !it.selected } :=
      List.getElem?_set_self (hlen ▸ h)
    simp only [toggle_current, hne2, Bool.false_eq_true, if_false, hget2]
    rw [List.set_set]
    have hentry : ({ it with selected := !(!it.selected) } : Entry) = it := by
      cases it; simp
    rw [hentry, set_of_getElem? _ _ _ hit]

/-- C6 witness: toggling on the concrete two-entry session flips entry 0 and a
second toggle restores the state. -/
theorem c6_toggle_current_witness :
    ∃ it app', sampleApp.items[sampleApp.cursor]? = some it ∧
      toggle_current sampleApp = some app' ∧ toggle_current app' = some sampleApp := by
  obtain ⟨it, app', h1, h2, -, -, -, -, -, -, -, -, h3⟩ :=
    c6_toggle_current sampleApp (by decide)
  exact ⟨it, app', h1, h2, h3⟩

/-! ### Shape lemmas for the preview and movement operations -/

theorem update_preview_shape (fs : FileSys) (app app' : App)
    (h : update_preview fs app = some app') :
    app'.items = app.items ∧ app'.cursor = app.cursor ∧
      app'.show_preview = app.show_preview := by
  unfold update_preview at h
  split at h
  · cases h; exact ⟨rfl, rfl, rfl⟩
  · split at h
    · cases h
    · split at h
      · rcases Option.map_eq_some'.mp h with ⟨p, -, rfl⟩
        exact ⟨rfl, rfl, rfl⟩
      · cases h; exact ⟨rfl, rfl, rfl⟩

theorem move_up_spec (fs : FileSys) (app : App) (h : app.items ≠ []) :
    ∀ app', move_up fs app = some app' →
      app'.items = app.items ∧ app'.cursor = cursorUp app.items.length app.cursor ∧
        app'.show_preview = app.show_preview := by
  intro app' happ
  have hne : app.items.isEmpty = false := by
    simpa [List.isEmpty_iff] using h
  unfold move_up at happ
  rw [hne] at happ
  simp only [Bool.false_eq_true, if_false] at happ
  obtain ⟨h1, h2, h3⟩ := update_preview_shape _ _ _ happ
  exact ⟨h1, h2, h3⟩

theorem move_down_spec (fs : FileSys) (app : App) (h : app.items ≠ []) :
    ∀ app', move_down fs app = some app' →
      app'.items = app.items ∧ app'.cursor = cursorDown app.items.length app.cursor ∧
        app'.show_preview = app.show_preview := by
  intro app' happ
  have hne : app.items.isEmpty = false := by
    simpa [List.isEmpty_iff] using h
  unfold move_down at happ
  rw [hne] at happ
  simp only [Bool.false_eq_true, if_false] at happ
  obtain ⟨h1, h2, h3⟩ := update_preview_shape _ _ _ happ
  exact ⟨h1, h2, h3⟩

theorem cursor_down_up (len c : Nat) (hl : 0 < len) (hc : c < len) :
    cursorDown len (cursorUp len c) = c := by
  unfold cursorUp cursorDown
  by_cases h0 : c = 0
  · subst h0
    rw [if_pos rfl, Nat.sub_add_cancel hl, Nat.mod_self]
  · rw [if_neg h0, Nat.sub_add_cancel (Nat.one_le_iff_ne_zero.mpr h0), Nat.mod_eq_of_lt hc]

theorem cursor_up_down (len c : Nat) (hl : 0 < len) (hc : c < len) :
    cursorUp len (cursorDown len c) = c := by
  unfold cursorUp cursorDown
  by_cases hlast : c + 1 = len
  · rw [hlast, Nat.mod_self, if_pos rfl]
    omega
  · have hlt : c + 1 < len := by omega
    rw [Nat.mod_eq_of_lt hlt, if_neg (by omega)]
    omega

theorem cursorUp_lt (len c : Nat) (hl : 0 < len) (hc : c < len) : cursorUp len c < len := by
  unfold cursorUp
  split <;> omega

theorem cursorDown_lt (len c : Nat) (hl : 0 < len) : cursorDown len c < len :=
  Nat.mod_lt _ hl

/-- C4: on a non-empty catalog, `moveUp` decrements the cursor with wraparound
and `moveDown` increments it modulo the length; the two are mutually inverse on
the cursor (each round trip restores the index), and each cursor map is a
bijection of `[0, len)` onto itself. -/
theorem c4_move_roundtrip (fs : FileSys) (app : App) (h : app.cursor < app.items.length) :
    (∀ app', move_up fs app = some app' →
      app'.cursor = cursorUp app.items.length app.cursor ∧
      app'.items = app.items ∧
      ∀ app'', move_down fs app' = some app'' → app''.cursor = app.cursor) ∧
    (∀ app', move_down fs app = some app' →
      app'.cursor = cursorDown app.items.length app.cursor ∧
      app'.items = app.items ∧
      ∀ app'', move_up fs app' = some app'' → app''.cursor = app.cursor) ∧
    Set.BijOn (cursorUp app.items.length)
      (Set.Iio app.items.length) (Set.Iio app.items.length) ∧
    Set.BijOn (cursorDown app.items.length)
      (Set.Iio app.items.length) (Set.Iio app.items.length) := by
  have hl : 0 < app.items.length := by omega
  have hne : app.items ≠ [] := List.length_pos.mp hl
  refine ⟨?_, ?_, ?_, ?_⟩
  · intro app' happ
    obtain ⟨hi, hc, -⟩ := move_up_spec fs app hne app' happ
    refine ⟨hc, hi, ?_⟩
    intro app'' happ2
    obtain ⟨-, hc2, -⟩ := move_down_spec fs app' (by rw [hi]; exact hne) app'' happ2
    rw [hc2, hi, hc]
    exact cursor_down_up _ _ hl h
  · intro app' happ
    obtain ⟨hi, hc, -⟩ := move_down_spec fs app hne app' happ
    refine ⟨hc, hi, ?_⟩
    intro app'' happ2
    obtain ⟨-, hc2, -⟩ := move_up_spec fs app' (by rw [hi]; exact hne) app'' happ2
    rw [hc2, hi, hc]
    exact cursor_up_down _ _ hl h
  · have hinv : Set.InvOn (cursorDown app.items.length) (cursorUp app.items.length)
        (Set.Iio app.items.length) (Set.Iio app.items.length) :=
      ⟨fun c hc => cursor_down_up _ _ hl hc, fun c hc => cursor_up_down _ _ hl hc⟩
    exact hinv.bijOn (fun c hc => cursorUp_lt _ _ hl hc) (fun c _ => cursorDown_lt _ _ hl)
  · have hinv : Set.InvOn (cursorUp app.items.length) (cursorDown app.items.length)
        (Set.Iio app.items.length) (Set.Iio app.items.length) :=
      ⟨fun c hc => cursor_up_down _ _ hl hc, fun c hc => cursor_down_up _ _ hl hc⟩
    exact hinv.bijOn (fun c _ => cursorDown_lt _ _ hl) (fun c hc => cursorUp_lt _ _ hl hc)

/-- A file system where every read fails; used by concrete witnesses. -/
def fsErr : FileSys := fun _ => Except.error "e"

/-- The state after `move_up` from `sampleApp` under `fsErr`. -/
def sampleAppUp : App :=
  { items := [entryA, entryB], cursor := 1,
    preview_content := "Error reading file: e", show_preview := true }

/-- The state after `move_down` from `sampleAppUp` under `fsErr`. -/
def sampleAppUpDown : App :=
  { items := [entryA, entryB], cursor := 0,
    preview_content := "Error reading file: e", show_preview := true }

/-- C4 witness: the round trip evaluated on the concrete two-entry session. -/
theorem c4_move_roundtrip_witness :
    move_up fsErr sampleApp = some sampleAppUp ∧
    move_down fsErr sampleAppUp = some sampleAppUpDown ∧
    sampleAppUpDown.cursor = sampleApp.cursor := by
  have h1 : move_up fsErr sampleApp = some sampleAppUp := by decide
  have h2 : move_down fsErr sampleAppUp = some sampleAppUpDown := by decide
  exact ⟨h1, h2,
    ((c4_move_roundtrip fsErr sampleApp (by decide)).1 sampleAppUp h1).2.2 sampleAppUpDown h2⟩

/-- The empty session used by witnesses. -/
def emptyApp : App :=
  { items := [], cursor := 0, preview_content := "", show_preview := true }

/-- C5 counterexample: on an empty catalog the stored placeholder is
"No files available" (capital N), not the claimed "no files available". -/
theorem c5_counterexample :
    (App.new fsErr []).map (fun a => a.preview_content) = some "No files available" ∧
    "No files available" ≠ "no files available" := by
  constructor
  · simp [App.new, sortEntries, update_preview]
  · decide

/-- C5 (amended): on an empty catalog, `moveUp`, `moveDown` and `toggleCurrent`
leave the state unchanged, and the preview text is the placeholder
"No files available", set at construction and by every preview recomputation. -/
theorem c5_empty_catalog (fs : FileSys) (app : App) (h : app.items = []) :
    move_up fs app = some app ∧
    move_down fs app = some app ∧
    toggle_current app = some app ∧
    update_preview fs app = some { app with preview_content := "No files available" } ∧
    ∀ app', App.new fs [] = some app' → app'.preview_content = "No files available" := by
  refine ⟨?_, ?_, ?_, ?_, ?_⟩
  · simp [move_up, h]
  · simp [move_down, h]
  · simp [toggle_current, h]
  · simp [update_preview, h]
  · intro app' happ
    simp only [App.new, sortEntries, List.mergeSort_nil, update_preview, List.isEmpty_nil,
      if_true, Option.some.injEq] at happ
    rw [← happ]

/-- C5 witness: the amended statement evaluated on the concrete empty session. -/
theorem c5_empty_catalog_witness :
    move_up fsErr emptyApp = some emptyApp ∧
    update_preview fsErr emptyApp =
      some { emptyApp with preview_content := "No files available" } := by
  obtain ⟨h1, -, -, h4, -⟩ := c5_empty_catalog fsErr emptyApp rfl
  exact ⟨h1, h4⟩

theorem toggle_current_shape (app : App) :
    ∀ app', toggle_current app = some app' →
      app'.items.length = app.items.length ∧ app'.cursor = app.cursor := by
  intro app' h
  unfold toggle_current at h
  split at h
  · cases h; exact ⟨rfl, rfl⟩
  · split at h
    · cases h
      exact ⟨by simp, rfl⟩
    · cases h

/-- C8: with the cursor in bounds on a non-empty catalog, every public
operation keeps the catalog length unchanged and the cursor in `[0, len)`;
construction places the cursor at 0, in bounds. -/
theorem c8_cursor_invariant (fs : FileSys) (app : App)
    (h : app.cursor < app.items.length) :
    (∀ app', move_up fs app = some app' →
      app'.items.length = app.items.length ∧ app'.cursor < app'.items.length) ∧
    (∀ app', move_down fs app = some app' →
      app'.items.length = app.items.length ∧ app'.cursor < app'.items.length) ∧
    (∀ app', toggle_current app = some app' →
      app'.items.length = app.items.length ∧ app'.cursor < app'.items.length) ∧
    ((select_all app).items.length = app.items.length ∧
      (select_all app).cursor < (select_all app).items.length) ∧
    ((select_none app).items.length = app.items.length ∧
      (select_none app).cursor < (select_none app).items.length) ∧
    (∀ n app', select_only_n app n = some app' →
      app'.items.length = app.items.length ∧ app'.cursor < app'.items.length) ∧
    ((toggle_preview app).items.length = app.items.length ∧
      (toggle_preview app).cursor < (toggle_preview app).items.length) ∧
    (∀ app', update_preview fs app = some app' →
      app'.items.length = app.items.length ∧ app'.cursor < app'.items.length) ∧
    (∀ items app', items ≠ [] → App.new fs items = some app' →
      app'.items.length = items.length ∧ app'.cursor = 0 ∧
        app'.cursor < app'.items.length) := by
  have hl : 0 < app.items.length := by omega
  have hne : app.items ≠ [] := List.length_pos.mp hl
  refine ⟨?_, ?_, ?_, ⟨by simp [select_all], by simpa [select_all] using h⟩,
    ⟨by simp [select_none], by simpa [select_none] using h⟩, ?_, ⟨rfl, h⟩, ?_, ?_⟩
  · intro app' happ
    obtain ⟨hi, hc, -⟩ := move_up_spec fs app hne app' happ
    rw [hi, hc]
    exact ⟨rfl, cursorUp_lt _ _ hl h⟩
  · intro app' happ
    obtain ⟨hi, hc, -⟩ := move_down_spec fs app hne app' happ
    rw [hi, hc]
    exact ⟨rfl, cursorDown_lt _ _ hl⟩
  · intro app' happ
    obtain ⟨hlen, hc⟩ := toggle_current_shape app app' happ
    rw [hlen, hc]
    exact ⟨rfl, h⟩
  · intro n app' happ
    obtain ⟨it, -, hstep⟩ := select_only_n_spec app n hne
    rw [hstep] at happ
    cases happ
    have hidxlt : n.min (app.items.length - 1) < app.items.length :=
      lt_of_le_of_lt (Nat.min_le_right _ _) (Nat.sub_lt hl Nat.one_pos)
    constructor
    · simp [select_none]
    · simpa [select_none] using hidxlt
  · intro app' happ
    obtain ⟨hi, hc, -⟩ := update_preview_shape fs app app' happ
    rw [hi, hc]
    exact ⟨rfl, h⟩
  · intro items app' hni happ
    unfold App.new at happ
    obtain ⟨hi, hc, -⟩ := update_preview_shape fs _ app' happ
    simp only at hi hc
    have hlen : app'.items.length = items.length := by
      rw [hi]; simp [sortEntries]
    refine ⟨hlen, hc, ?_⟩
    rw [hc, hlen]
    exact List.length_pos.mpr hni

/-- C8 witness: the invariant evaluated on the concrete two-entry session for a
movement step and for `selectAll`. -/
theorem c8_cursor_invariant_witness :
    sampleAppUp.items.length = sampleApp.items.length ∧
    sampleAppUp.cursor < sampleAppUp.items.length ∧
    (select_all sampleApp).items.length = sampleApp.items.length := by
  obtain ⟨hup, -, -, hall, -⟩ := c8_cursor_invariant fsErr sampleApp (by decide)
  obtain ⟨h1, h2⟩ := hup sampleAppUp (by decide)
  exact ⟨h1, h2, hall.1⟩

/-- C9: once the loop leaves with a confirmation flag, `main` prints one line
per selected entry — the relative path when the formatter yields one, else the
path itself, in catalog order — and exits 0 on confirm; on cancel it prints
nothing and exits 130, regardless of the final selection state. -/
theorem c9_exit_codes (fs : FileSys) (diff : String → Option String)
    (items : List Entry) (keys : List (KeyCode × Modifiers)) :
    ∀ confirmed app₀ app', App.new fs items = some app₀ →
      runLoop fs app₀ keys = some (confirmed, app') →
      mainRun fs diff items keys = some (mainExit diff confirmed app') ∧
      (confirmed = true →
        mainExit diff confirmed app' =
          ((selected_paths app').map fun p => (diff p).getD p, 0)) ∧
      (confirmed = false → mainExit diff confirmed app' = ([], 130)) ∧
      (mainExit diff confirmed app').2 = (if confirmed then 0 else 130) := by
  intro confirmed app₀ app' h0 h1
  refine ⟨?_, ?_, ?_, ?_⟩
  · rw [mainRun, h0, Option.some_bind, h1]
    rfl
  · intro hc
    rw [hc, mainExit, if_pos rfl]
  · intro hc
    rw [hc, mainExit, if_neg (by simp)]
  · cases confirmed <;> rfl

/-- No modifier keys held. -/
def noMods : Modifiers := { shift := false, ctrl := false, alt := false }

/-- The sorted two-entry catalog is already in order. -/
theorem sort_sample : sortEntries [entryA, entryB] = [entryA, entryB] := by
  have h1 : entryLe entryA entryB = true := by decide
  simp [sortEntries, List.mergeSort, List.merge, h1]

/-- The session built on the two sample entries under `fsErr`. -/
def c9App : App :=
  { items := [entryA, entryB], cursor := 0,
    preview_content := "Error reading file: e", show_preview := true }

theorem c9App_new : App.new fsErr [entryA, entryB] = some c9App := by
  unfold App.new
  rw [sort_sample]
  decide

/-- C9 witness: pressing space (select) then q (cancel) on the concrete
two-entry session prints nothing and exits 130 — the prior selection is
discarded. -/
theorem c9_exit_codes_witness :
    mainRun fsErr (fun _ => none) [entryA, entryB]
      [(KeyCode.char ' ', noMods), (KeyCode.char 'q', noMods)] = some ([], 130) := by
  have h1 : runLoop fsErr c9App [(KeyCode.char ' ', noMods), (KeyCode.char 'q', noMods)] =
      some (false, { c9App with
        items := [{ entryA with selected := true }, entryB] }) := by
    decide
  obtain ⟨hmain, -, hfalse, -⟩ :=
    c9_exit_codes fsErr (fun _ => none) [entryA, entryB]
      [(KeyCode.char ' ', noMods), (KeyCode.char 'q', noMods)] false c9App _ c9App_new h1
  rw [hmain, hfalse rfl]

/-! ### UTF-8 byte arithmetic of the preview truncation -/

theorem utf8Len_append (a b : List Char) : utf8Len (a ++ b) = utf8Len a + utf8Len b := by
  induction a with
  | nil => simp [utf8Len]
  | cons c a ih => simp [utf8Len, ih, Nat.add_assoc]

theorem utf8Len_replicate (n : Nat) (c : Char) :
    utf8Len (List.replicate n c) = n * c.utf8Size := by
  induction n with
  | zero => simp [utf8Len]
  | succ n ih =>
    rw [List.replicate_succ, utf8Len, ih, Nat.succ_mul]
    omega

theorem length_asString (l : List Char) : l.asString.length = l.length := rfl

theorem takeBytes_cons_succ (c : Char) (cs : List Char) (n : Nat) :
    takeBytes (c :: cs) (n + 1) =
      if c.utf8Size ≤ n + 1 then (takeBytes cs (n + 1 - c.utf8Size)).map (c :: ·)
      else none := by
  simp only [takeBytes]

theorem takeBytes_exact (pre rest : List Char) :
    takeBytes (pre ++ rest) (utf8Len pre) = some pre := by
  induction pre with
  | nil => simp [utf8Len, takeBytes]
  | cons c pre ih =>
    have hpos : 0 < c.utf8Size := Char.utf8Size_pos c
    have hm : utf8Len (c :: pre) = (utf8Len (c :: pre) - 1) + 1 := by
      simp only [utf8Len]
      omega
    rw [List.cons_append, hm]
    simp only [takeBytes]
    rw [if_pos (by simp only [utf8Len] at hm ⊢; omega)]
    have harg : utf8Len (c :: pre) - 1 + 1 - c.utf8Size = utf8Len pre := by
      simp only [utf8Len]
      omega
    rw [harg, ih]
    rfl

theorem previewOfContent_small (content : List Char) (h1 : content ≠ [])
    (h2 : utf8Len content ≤ 10000) :
    previewOfContent content = some content.asString := by
  unfold previewOfContent
  rw [if_neg (by simpa [List.isEmpty_iff] using h1), if_neg (by omega)]

theorem previewOfContent_trunc (content pre rest : List Char) (hc : content = pre ++ rest)
    (hpre : utf8Len pre = 10000) (hlen : utf8Len content > 10000) :
    previewOfContent content =
      some (pre.asString ++ "\n\n... (truncated, file is " ++
        toString (utf8Len content) ++ " bytes)") := by
  have hne : content ≠ [] := by
    intro h
    rw [h] at hlen
    simp [utf8Len] at hlen
  unfold previewOfContent
  rw [if_neg (by simpa [List.isEmpty_iff] using hne), if_pos hlen]
  conv in takeBytes _ _ => rw [hc, ← hpre]
  rw [takeBytes_exact]
  rfl

/-- C1 counterexample: an input of 10001 characters (each two UTF-8 bytes) is
longer than 10,000 characters, yet its preview is not the first 10,000
characters followed by any notice — the code truncates at 10,000 bytes, i.e.
5,000 characters here. -/
theorem c1_counterexample :
    (List.replicate 10001 'é').length > 10000 ∧
    ∀ s : String,
      previewOfContent (List.replicate 10001 'é') ≠
        some (((List.replicate 10001 'é').take 10000).asString ++ s) := by
  constructor
  · rw [List.length_replicate]
    omega
  · intro s hEq
    have hrep : (List.replicate 10001 'é' : List Char) =
        List.replicate 5000 'é' ++ List.replicate 5001 'é' := by
      rw [← List.replicate_add]
    have hsize : Char.utf8Size 'é' = 2 := by decide
    have hpre : utf8Len (List.replicate 5000 'é') = 10000 := by
      rw [utf8Len_replicate, hsize]
    have hlen : utf8Len (List.replicate 10001 'é') = 20002 := by
      rw [utf8Len_replicate, hsize]
    rw [previewOfContent_trunc _ _ _ hrep hpre (by rw [hlen]; omega), hlen] at hEq
    have hql := congrArg String.length (Option.some.inj hEq)
    have h1 : ("\n\n... (truncated, file is " : String).length = 26 := by decide
    have h2 : (" bytes)" : String).length = 7 := by decide
    have h3 : (toString (20002 : Nat)).length = 5 := by decide
    simp only [String.length_append, length_asString, List.length_replicate,
      List.length_take, h1, h2, h3] at hql
    omega

/-- C1 (amended): the preview of successfully read content is "<empty file>"
for empty content, the content verbatim when it is at most 10,000 bytes, and
for content over 10,000 bytes the prefix spanning exactly 10,000 bytes followed
by a notice naming the original byte length; a read failure becomes the
displayed text "Error reading file: <error>", never a panic. -/
theorem c1_preview_cases (content : List Char) :
    (content = [] → previewOfContent content = some "<empty file>") ∧
    (content ≠ [] → utf8Len content ≤ 10000 →
      previewOfContent content = some content.asString) ∧
    (∀ pre rest, content = pre ++ rest → utf8Len pre = 10000 → utf8Len content > 10000 →
      previewOfContent content =
        some (pre.asString ++ "\n\n... (truncated, file is " ++
          toString (utf8Len content) ++ " bytes)")) ∧
    (∀ fs app e err, app.items.isEmpty = false → app.items[app.cursor]? = some e →
      fs e.path = Except.error err →
      update_preview fs app =
        some { app with preview_content := "Error reading file: " ++ err }) := by
  refine ⟨?_, previewOfContent_small content, ?_, ?_⟩
  · intro h
    subst h
    rfl
  · intro pre rest hc hpre hlen
    exact previewOfContent_trunc content pre rest hc hpre hlen
  · intro fs app e err hne hget hfs
    unfold update_preview
    simp only [hne, Bool.false_eq_true, if_false, hget, hfs]

/-- C1 witness: the three concrete spec examples — "abc" verbatim, the empty
file placeholder, and an 11,000-byte ASCII file truncated at 10,000 bytes with
a notice mentioning 11000. -/
theorem c1_preview_cases_witness :
    previewOfContent [] = some "<empty file>" ∧
    previewOfContent "abc".data = some "abc" ∧
    previewOfContent (List.replicate 11000 'a') =
      some ((List.replicate 10000 'a').asString ++
        "\n\n... (truncated, file is " ++ "11000" ++ " bytes)") := by
  refine ⟨(c1_preview_cases []).1 rfl, ?_, ?_⟩
  · have h := (c1_preview_cases "abc".data).2.1 (by decide) (by decide)
    rw [h]
    rfl
  · have hrep : (List.replicate 11000 'a' : List Char) =
        List.replicate 10000 'a' ++ List.replicate 1000 'a' := by
      rw [← List.replicate_add]
    have hsa : Char.utf8Size 'a' = 1 := by decide
    have hpre : utf8Len (List.replicate 10000 'a') = 10000 := by
      rw [utf8Len_replicate, hsa, Nat.mul_one]
    have hlen : utf8Len (List.replicate 11000 'a') = 11000 := by
      rw [utf8Len_replicate, hsa, Nat.mul_one]
    have h := (c1_preview_cases (List.replicate 11000 'a')).2.2.1
      (List.replicate 10000 'a') (List.replicate 1000 'a') hrep hpre (by rw [hlen]; omega)
    rw [h, hlen, show toString (11000 : Nat) = "11000" from by decide]

theorem takeBytes_replicate_two_none (c : Char) (hc : c.utf8Size = 2) :
    ∀ (m n : Nat), n % 2 = 1 → n < 2 * m → takeBytes (List.replicate m c) n = none := by
  intro m
  induction m with
  | zero =>
    intro n h1 h2
    omega
  | succ m ih =>
    intro n h1 h2
    rw [List.replicate_succ]
    obtain ⟨k, rfl⟩ : ∃ k, n = k + 1 := ⟨n - 1, by omega⟩
    rw [takeBytes_cons_succ, hc]
    by_cases h2le : 2 ≤ k + 1
    · rw [if_pos h2le, ih (k + 1 - 2) (by omega) (by omega)]
      rfl
    · rw [if_neg h2le]

/-- C10: the preview derivation is not total — on the valid UTF-8 content
consisting of an ASCII byte followed by 5000 two-byte characters (10001 bytes),
byte offset 10000 falls inside a multi-byte character, the slice
`&content[..10000]` has no character boundary there, and the preview
computation panics (models as `none`). -/
theorem c10_preview_truncation_panics :
    utf8Len ('a' :: List.replicate 5000 'é') = 10001 ∧
    takeBytes ('a' :: List.replicate 5000 'é') 10000 = none ∧
    previewOfContent ('a' :: List.replicate 5000 'é') = none := by
  have hsize : Char.utf8Size 'é' = 2 := by decide
  have hsa : Char.utf8Size 'a' = 1 := by decide
  have hlen : utf8Len ('a' :: List.replicate 5000 'é') = 10001 := by
    rw [utf8Len, utf8Len_replicate, hsize, hsa]
  have htake : takeBytes ('a' :: List.replicate 5000 'é') 10000 = none := by
    rw [show (10000 : Nat) = 9999 + 1 from rfl, takeBytes_cons_succ, hsa]
    rw [if_pos (by omega), show (9999 + 1 - 1 : Nat) = 9999 from rfl,
      takeBytes_replicate_two_none 'é' hsize 5000 9999 (by omega) (by omega)]
    rfl
  refine ⟨hlen, htake, ?_⟩
  unfold previewOfContent
  rw [if_neg (fun hq => Bool.noConfusion hq), if_pos (by rw [hlen]; omega), htake]
  rfl

/-! ### Comparator laws for the catalog sort -/

theorem char_toNat_inj {a b : Char} (h : a.toNat = b.toNat) : a = b :=
  Char.ext (UInt32.toNat.inj h)

theorem cmpChars_cons_cons (a b : Char) (as bs : List Char) :
    cmpChars (a :: as) (b :: bs) =
      match compare a.toNat b.toNat with
      | Ordering.eq => cmpChars as bs
      | o => o := rfl

theorem cmpChars_cons_of_lt {a b : Char} (h : compare a.toNat b.toNat = Ordering.lt)
    (as bs : List Char) : cmpChars (a :: as) (b :: bs) = Ordering.lt := by
  rw [cmpChars_cons_cons, h]

theorem cmpChars_cons_of_gt {a b : Char} (h : compare a.toNat b.toNat = Ordering.gt)
    (as bs : List Char) : cmpChars (a :: as) (b :: bs) = Ordering.gt := by
  rw [cmpChars_cons_cons, h]

theorem cmpChars_cons_of_eq {a b : Char} (h : compare a.toNat b.toNat = Ordering.eq)
    (as bs : List Char) : cmpChars (a :: as) (b :: bs) = cmpChars as bs := by
  rw [cmpChars_cons_cons, h]

theorem cmpChars_swap : ∀ as bs : List Char, cmpChars bs as = (cmpChars as bs).swap := by
  intro as
  induction as with
  | nil =>
    intro bs
    cases bs <;> rfl
  | cons a as ih =>
    intro bs
    cases bs with
    | nil => rfl
    | cons b bs =>
      rcases Nat.lt_trichotomy a.toNat b.toNat with h | h | h
      · rw [cmpChars_cons_of_lt (Nat.compare_eq_lt.mpr h),
          cmpChars_cons_of_gt (Nat.compare_eq_gt.mpr h)]
        rfl
      · have hab : a = b := char_toNat_inj h
        subst hab
        rw [cmpChars_cons_of_eq (Nat.compare_eq_eq.mpr rfl),
          cmpChars_cons_of_eq (Nat.compare_eq_eq.mpr rfl), ih]
      · rw [cmpChars_cons_of_gt (Nat.compare_eq_gt.mpr h),
          cmpChars_cons_of_lt (Nat.compare_eq_lt.mpr h)]
        rfl

theorem cmpChars_le_trans : ∀ as bs cs : List Char,
    cmpChars as bs ≠ Ordering.gt → cmpChars bs cs ≠ Ordering.gt →
    cmpChars as cs ≠ Ordering.gt := by
  intro as
  induction as with
  | nil =>
    intro bs cs h1 h2
    cases cs with
    | nil => simp [cmpChars]
    | cons c cs => simp [cmpChars]
  | cons a as ih =>
    intro bs cs h1 h2
    cases bs with
    | nil => exact absurd rfl h1
    | cons b bs =>
      cases cs with
      | nil => exact absurd rfl h2
      | cons c cs =>
        rcases Nat.lt_trichotomy a.toNat b.toNat with hab | hab | hab
        · rcases Nat.lt_trichotomy b.toNat c.toNat with hbc | hbc | hbc
          · intro hq
            rw [cmpChars_cons_of_lt (Nat.compare_eq_lt.mpr (Nat.lt_trans hab hbc))] at hq
            exact Ordering.noConfusion hq
          · have hbc' : b = c := char_toNat_inj hbc
            subst hbc'
            intro hq
            rw [cmpChars_cons_of_lt (Nat.compare_eq_lt.mpr hab)] at hq
            exact Ordering.noConfusion hq
          · rw [cmpChars_cons_of_gt (Nat.compare_eq_gt.mpr hbc)] at h2
            exact absurd rfl h2
        · have hab' : a = b := char_toNat_inj hab
          subst hab'
          rw [cmpChars_cons_of_eq (Nat.compare_eq_eq.mpr rfl)] at h1
          rcases Nat.lt_trichotomy a.toNat c.toNat with hac | hac | hac
          · intro hq
            rw [cmpChars_cons_of_lt (Nat.compare_eq_lt.mpr hac)] at hq
            exact Ordering.noConfusion hq
          · have hac' : a = c := char_toNat_inj hac
            subst hac'
            rw [cmpChars_cons_of_eq (Nat.compare_eq_eq.mpr rfl)] at h2 ⊢
            exact ih bs cs h1 h2
          · rw [cmpChars_cons_of_gt (Nat.compare_eq_gt.mpr hac)] at h2
            exact absurd rfl h2
        · rw [cmpChars_cons_of_gt (Nat.compare_eq_gt.mpr hab)] at h1
          exact absurd rfl h1

theorem entryCmp_hidden_gt {a b : Entry} (ha : a.hidden = true) (hb : b.hidden = false) :
    entryCmp a b = Ordering.gt := by
  unfold entryCmp
  rw [ha, hb]

theorem entryCmp_hidden_lt {a b : Entry} (ha : a.hidden = false) (hb : b.hidden = true) :
    entryCmp a b = Ordering.lt := by
  unfold entryCmp
  rw [ha, hb]

theorem entryCmp_same_hidden {a b : Entry} (h : a.hidden = b.hidden) :
    entryCmp a b = cmpChars (lowerName a) (lowerName b) := by
  unfold entryCmp
  rw [h]
  cases hb : b.hidden <;> rfl

theorem entryCmp_swap (a b : Entry) : entryCmp b a = (entryCmp a b).swap := by
  cases ha : a.hidden <;> cases hb : b.hidden
  · rw [entryCmp_same_hidden (hb.trans ha.symm), entryCmp_same_hidden (ha.trans hb.symm),
      cmpChars_swap]
  · rw [entryCmp_hidden_gt hb ha, entryCmp_hidden_lt ha hb]
    rfl
  · rw [entryCmp_hidden_lt hb ha, entryCmp_hidden_gt ha hb]
    rfl
  · rw [entryCmp_same_hidden (hb.trans ha.symm), entryCmp_same_hidden (ha.trans hb.symm),
      cmpChars_swap]

theorem entryLe_eq_true_iff {a b : Entry} :
    entryLe a b = true ↔ entryCmp a b ≠ Ordering.gt := by
  unfold entryLe
  cases hc : entryCmp a b <;> decide

theorem entryLe_total : ∀ a b : Entry, entryLe a b || entryLe b a := by
  intro a b
  rw [Bool.or_eq_true, entryLe_eq_true_iff, entryLe_eq_true_iff, entryCmp_swap a b]
  cases hc : entryCmp a b <;> decide

theorem entryLe_trans :
    ∀ a b c : Entry, entryLe a b → entryLe b c → entryLe a c := by
  intro a b c h1 h2
  rw [entryLe_eq_true_iff] at h1 h2 ⊢
  cases ha : a.hidden <;> cases hb : b.hidden <;> cases hc : c.hidden
  · rw [entryCmp_same_hidden (ha.trans hb.symm)] at h1
    rw [entryCmp_same_hidden (hb.trans hc.symm)] at h2
    rw [entryCmp_same_hidden (ha.trans hc.symm)]
    exact cmpChars_le_trans _ _ _ h1 h2
  · rw [entryCmp_hidden_lt ha hc]
    decide
  · rw [entryCmp_hidden_gt hb hc] at h2
    exact absurd rfl h2
  · rw [entryCmp_hidden_lt ha hc]
    decide
  · rw [entryCmp_hidden_gt ha hb] at h1
    exact absurd rfl h1
  · rw [entryCmp_hidden_gt ha hb] at h1
    exact absurd rfl h1
  · rw [entryCmp_hidden_gt hb hc] at h2
    exact absurd rfl h2
  · rw [entryCmp_same_hidden (ha.trans hb.symm)] at h1
    rw [entryCmp_same_hidden (hb.trans hc.symm)] at h2
    rw [entryCmp_same_hidden (ha.trans hc.symm)]
    exact cmpChars_le_trans _ _ _ h1 h2

theorem sortEntries_sorted (items : List Entry) :
    (sortEntries items).Pairwise (fun a b => entryLe a b = true) :=
  List.sorted_mergeSort entryLe_trans entryLe_total items

theorem pairwise_partition : ∀ l : List Entry,
    l.Pairwise (fun a b => entryLe a b = true) →
    l = l.filter (fun e => !e.hidden) ++ l.filter (fun e => e.hidden) := by
  intro l
  induction l with
  | nil => intro _; rfl
  | cons e l ih =>
    intro hl
    obtain ⟨hhead, htail⟩ := List.pairwise_cons.mp hl
    cases hhid : e.hidden
    · simp only [List.filter_cons, hhid, Bool.not_false, if_true, Bool.false_eq_true, if_false]
      rw [List.cons_append, ← ih htail]
    · have hall : ∀ x ∈ l, x.hidden = true := by
        intro x hx
        by_contra hxh
        have hx2 : x.hidden = false := by simpa using hxh
        have hle := hhead x hx
        rw [entryLe_eq_true_iff] at hle
        exact hle (entryCmp_hidden_gt hhid hx2)
      have h1 : l.filter (fun e => !e.hidden) = [] := by
        rw [List.filter_eq_nil_iff]
        intro x hx
        simp [hall x hx]
      have h2 : l.filter (fun e => e.hidden) = l :=
        List.filter_eq_self.mpr (fun x hx => by simp [hall x hx])
      simp only [List.filter_cons, hhid, Bool.not_true, Bool.false_eq_true, if_false, if_true]
      rw [h1, h2]
      rfl

theorem sorted_ci_of_pairwise {l : List Entry} (p : Entry → Bool)
    (hp : ∀ a b : Entry, p a = true → p b = true → a.hidden = b.hidden)
    (hl : l.Pairwise (fun a b => entryLe a b = true)) :
    (l.filter p).Pairwise
      (fun a b => cmpChars (lowerName a) (lowerName b) ≠ Ordering.gt) := by
  have hsub : (l.filter p).Pairwise (fun a b => entryLe a b = true) :=
    List.Pairwise.sublist (List.filter_sublist l) hl
  refine hsub.imp_of_mem ?_
  intro a b ha hb hab
  have hpa := (List.mem_filter.mp ha).2
  have hpb := (List.mem_filter.mp hb).2
  rw [entryLe_eq_true_iff, entryCmp_same_hidden (hp a b hpa hpb)] at hab
  exact hab

/-- The four entries of the spec's sort-order example. -/
def exNameA : Entry :=
  { name := "A", path := "A", hidden := false, ignored := false, selected := false }

def exNameB : Entry :=
  { name := "b", path := "b", hidden := false, ignored := false, selected := false }

def exHiddenA : Entry :=
  { name := ".a", path := ".a", hidden := true, ignored := false, selected := false }

def exHiddenB : Entry :=
  { name := ".b", path := ".b", hidden := true, ignored := false, selected := false }

/-- C3: the catalog built at construction is a permutation of the input that is
sorted by the two-level order (non-hidden before hidden, case-insensitive names
within); it splits as the non-hidden block followed by the hidden block, each
block case-insensitively sorted and a permutation of the corresponding input
entries; the sort is stable (input pairs already in order stay in order); and
the spec's concrete example [".b", "A", "b", ".a"] sorts to
["A", "b", ".a", ".b"]. -/
theorem c3_catalog_order (items : List Entry) :
    List.Perm (sortEntries items) items ∧
    (sortEntries items).Pairwise (fun a b => entryLe a b = true) ∧
    sortEntries items =
      (sortEntries items).filter (fun e => !e.hidden) ++
        (sortEntries items).filter (fun e => e.hidden) ∧
    ((sortEntries items).filter (fun e => !e.hidden)).Pairwise
      (fun a b => cmpChars (lowerName a) (lowerName b) ≠ Ordering.gt) ∧
    ((sortEntries items).filter (fun e => e.hidden)).Pairwise
      (fun a b => cmpChars (lowerName a) (lowerName b) ≠ Ordering.gt) ∧
    List.Perm ((sortEntries items).filter (fun e => !e.hidden))
      (items.filter (fun e => !e.hidden)) ∧
    List.Perm ((sortEntries items).filter (fun e => e.hidden))
      (items.filter (fun e => e.hidden)) ∧
    (∀ a b, entryLe a b = true → List.Sublist [a, b] items →
      List.Sublist [a, b] (sortEntries items)) ∧
    sortEntries [exHiddenB, exNameA, exNameB, exHiddenA] =
      [exNameA, exNameB, exHiddenA, exHiddenB] := by
  have hperm : List.Perm (sortEntries items) items := List.mergeSort_perm items entryLe
  have hsorted := sortEntries_sorted items
  refine ⟨hperm, hsorted, pairwise_partition _ hsorted, ?_, ?_, hperm.filter _, hperm.filter _,
    ?_, ?_⟩
  · exact sorted_ci_of_pairwise _ (fun a b ha hb => by
      simp only [Bool.not_eq_true'] at ha hb
      rw [ha, hb]) hsorted
  · exact sorted_ci_of_pairwise _ (fun a b ha hb => by rw [ha, hb]) hsorted
  · intro a b hab hsub
    exact List.pair_sublist_mergeSort entryLe_trans entryLe_total hab hsub
  · have h12 : entryLe exHiddenB exNameA = false := by decide
    have h34 : entryLe exNameB exHiddenA = true := by decide
    have h14 : entryLe exNameA exHiddenA = true := by decide
    have h13 : entryLe exNameA exNameB = true := by decide
    have h23 : entryLe exHiddenB exNameB = false := by decide
    have h24 : entryLe exHiddenB exHiddenA = false := by decide
    simp [sortEntries, List.mergeSort, List.merge, h12, h34, h14, h13, h23, h24]

/-- C3 witness: the stability clause applied to a concrete in-order pair, plus
the comparator facts behind it. -/
theorem c3_catalog_order_witness :
    entryLe exNameA exNameB = true ∧
    List.Sublist [exNameA, exNameB] (sortEntries [exNameA, exNameB]) := by
  refine ⟨by decide, ?_⟩
  exact (c3_catalog_order [exNameA, exNameB]).2.2.2.2.2.2.2.1 exNameA exNameB (by decide)
    (List.Sublist.refl _)

end Sharkit
